import Mathlib

/-!
Verification of the in-memory trading ledger of `pump_bot`
(`src/modules/trade_manager.py`), together with the realtime-ingestion entry
point referenced by `main.py`.

Python floats are embedded as rationals (`ℚ`), `datetime` timestamps as
naturals, and Python `dict`s (which preserve insertion order and overwrite
in place) as association lists with an insert-or-replace operation.
-/

set_option maxHeartbeats 1000000

/-- Insertion-ordered association-list lookup, mirroring `k in d` / `d[k]`. -/
def lookupA {α : Type} : List (String × α) → String → Option α
  | [], _ => none
  | e :: rest, k => if e.1 = k then some e.2 else lookupA rest k

/-- Insertion-ordered association-list store, mirroring `d[k] = v`:
replaces the value when the key is present, appends otherwise. -/
def insertA {α : Type} : List (String × α) → String → α → List (String × α)
  | [], k, v => [(k, v)]
  | e :: rest, k, v => if e.1 = k then (k, v) :: rest else e :: insertA rest k v

/-- The `TradeType` enum from `trade_manager.py`. -/
inductive TradeType : Type
  | buy
  | sell
deriving DecidableEq

/-- The `TradeType.value` string payload of the Python enum. -/
def ttValue : TradeType → String
  | .buy => "buy"
  | .sell => "sell"

/-- The `TradeStatus` enum from `trade_manager.py`. -/
inductive TradeStatus : Type
  | pending
  | executed
  | cancelled
deriving DecidableEq

/-- The `Trade` dataclass. -/
structure Trade : Type where
  id : String
  symbol : String
  trade_type : TradeType
  quantity : ℚ
  price : ℚ
  timestamp : ℕ
  status : TradeStatus
deriving DecidableEq

/-- The `Position` dataclass. -/
structure Position : Type where
  symbol : String
  quantity : ℚ
  avg_price : ℚ
  market_value : ℚ
deriving DecidableEq

/-- The mutable state of a `TradeManager` (its external service clients carry
no ledger state and are omitted). -/
structure TradeManager : Type where
  trades : List (String × Trade)
  positions : List (String × Position)
  balance : ℚ
deriving DecidableEq

/-- The state set up by `TradeManager.__init__`: empty dicts, zero balance. -/
def initTM : TradeManager := ⟨[], [], 0⟩

/-- The `add_funds` method: adds `amount` to the balance when `amount > 0`, else no-op. -/
def add_funds (s : TradeManager) (amount : ℚ) : TradeManager :=
  if 0 < amount then { s with balance := s.balance + amount } else s

/-- The trade id `f"{symbol}_{trade_type.value}_{datetime.now().timestamp()}"`
built by `place_trade`; the clock reading is the `now` argument. -/
def mkTradeId (symbol : String) (tt : TradeType) (now : ℕ) : String :=
  symbol ++ "_" ++ ttValue tt ++ "_" ++ toString now

/-- The `place_trade` method: records a new PENDING trade under its derived id and
returns the id.  The current clock reading is passed in as `now`. -/
def place_trade (s : TradeManager) (symbol : String) (tt : TradeType)
    (quantity price : ℚ) (now : ℕ) : String × TradeManager :=
  let trade_id := mkTradeId symbol tt now
  let trade : Trade := ⟨trade_id, symbol, tt, quantity, price, now, TradeStatus.pending⟩
  (trade_id, { s with trades := insertA s.trades trade_id trade })

/-- The effective execution price `execution_price or trade.price`:
Python `or` falls back when the supplied float is `None` or zero. -/
def effPrice (execution_price : Option ℚ) (trade_price : ℚ) : ℚ :=
  match execution_price with
  | none => trade_price
  | some x => if x = 0 then trade_price else x

/-- The `_update_position` body applied to one `Position` record (the record is
created as `Position(symbol, 0, 0, 0)` first when absent). -/
def updatePositionEntry (pos : Position) (quantity price : ℚ) : Position :=
  if pos.quantity = 0 then
    { pos with quantity := quantity, avg_price := price,
               market_value := quantity * price }
  else
    let total_value := pos.quantity * pos.avg_price + quantity * price
    let q := pos.quantity + quantity
    { pos with quantity := q,
               avg_price := if q ≠ 0 then total_value / q else 0,
               market_value := q * price }

/-- The prior `Position` record `_update_position` works on: the stored one,
or a fresh `Position(symbol, 0, 0, 0)`. -/
def priorPos (s : TradeManager) (symbol : String) : Position :=
  (lookupA s.positions symbol).getD ⟨symbol, 0, 0, 0⟩

/-- The `_update_position` method: updates (creating on demand) the position record for
`symbol` by a signed `quantity` at `price`. -/
def update_position (s : TradeManager) (symbol : String)
    (quantity price : ℚ) : TradeManager :=
  { s with positions :=
      insertA s.positions symbol (updatePositionEntry (priorPos s symbol) quantity price) }

/-- The `_has_sufficient_position` method: `False` when no record exists, else the
record's quantity must be `≥` the requested quantity. -/
def has_sufficient_position (s : TradeManager) (symbol : String)
    (quantity : ℚ) : Bool :=
  match lookupA s.positions symbol with
  | none => false
  | some p => quantity ≤ p.quantity

/-- The `execute_trade` method: settles a PENDING trade, returning the Python `bool`
together with the post-state. -/
def execute_trade (s : TradeManager) (trade_id : String)
    (execution_price : Option ℚ) : Bool × TradeManager :=
  match lookupA s.trades trade_id with
  | none => (false, s)
  | some trade =>
    if trade.status ≠ TradeStatus.pending then (false, s)
    else
      let exec_price := effPrice execution_price trade.price
      let total_cost := exec_price * trade.quantity
      let done := { trade with status := TradeStatus.executed, price := exec_price }
      match trade.trade_type with
      | TradeType.buy =>
        if s.balance < total_cost then (false, s)
        else
          let s1 := { s with balance := s.balance - total_cost }
          let s2 := update_position s1 trade.symbol trade.quantity exec_price
          (true, { s2 with trades := insertA s2.trades trade_id done })
      | TradeType.sell =>
        if ¬ has_sufficient_position s trade.symbol trade.quantity then (false, s)
        else
          let s1 := { s with balance := s.balance + total_cost }
          let s2 := update_position s1 trade.symbol (-trade.quantity) exec_price
          (true, { s2 with trades := insertA s2.trades trade_id done })

/-- The `cancel_trade` method: flips a PENDING trade to CANCELLED, else fails. -/
def cancel_trade (s : TradeManager) (trade_id : String) : Bool × TradeManager :=
  match lookupA s.trades trade_id with
  | none => (false, s)
  | some trade =>
    if trade.status = TradeStatus.pending then
      let done := { trade with status := TradeStatus.cancelled }
      (true, { s with trades := insertA s.trades trade_id done })
    else (false, s)

/-- The `get_trade_history` method: all trades sorted by timestamp, most recent first
(Python `sorted(..., reverse=True)` is a stable descending sort). -/
def get_trade_history (s : TradeManager) : List Trade :=
  (s.trades.map Prod.snd).mergeSort (fun a b => decide (b.timestamp ≤ a.timestamp))

/-- Status of the trade stored under an id, if any. -/
def statusOf (s : TradeManager) (trade_id : String) : Option TradeStatus :=
  (lookupA s.trades trade_id).map Trade.status

/-- The keys of an association list are distinct. -/
def nodupKeys {α : Type} (l : List (String × α)) : Prop := (l.map Prod.fst).Nodup

/-- One mutating call against the shared ledger.  The clock reading of
`place_trade` is part of the operation. -/
inductive Op : Type
  | addFunds (amount : ℚ)
  | placeTrade (symbol : String) (tt : TradeType) (quantity price : ℚ) (now : ℕ)
  | settle (trade_id : String) (price : Option ℚ)
  | cancel (trade_id : String)

/-- Effect of one call on the `TradeManager` state. -/
def applyOp (s : TradeManager) : Op → TradeManager
  | .addFunds a => add_funds s a
  | .placeTrade sym tt q p n => (place_trade s sym tt q p n).2
  | .settle tid p => (execute_trade s tid p).2
  | .cancel tid => (cancel_trade s tid).2

/-- Calls whose quantities are positive and whose prices are non-negative. -/
def ValidOp : Op → Prop
  | .placeTrade _ _ q p _ => 0 < q ∧ 0 ≤ p
  | .settle _ pr => ∀ x, pr = some x → 0 ≤ x
  | _ => True

/-- States reachable from a fresh `TradeManager` by calls with positive
quantities and non-negative prices. -/
inductive Reachable : TradeManager → Prop
  | init : Reachable initTM
  | step (s : TradeManager) (op : Op) : Reachable s → ValidOp op →
      Reachable (applyOp s op)

/-- The call does not reuse an existing trade id (for `place_trade`, its
derived id `symbol_side_timestamp` is not already a key of the trade dict). -/
def FreshOp (s : TradeManager) : Op → Prop
  | .placeTrade sym tt _ _ n => lookupA s.trades (mkTradeId sym tt n) = none
  | _ => True

/-- States reachable from a fresh `TradeManager` by calls that never reuse
an existing trade id. -/
inductive ReachableF : TradeManager → Prop
  | init : ReachableF initTM
  | step (s : TradeManager) (op : Op) : ReachableF s → FreshOp s op →
      ReachableF (applyOp s op)

/-- Signed quantity of a trade: its quantity for an EXECUTED BUY, minus its
quantity for an EXECUTED SELL, zero otherwise. -/
def signedQty (t : Trade) : ℚ :=
  if t.status = TradeStatus.executed then
    match t.trade_type with
    | .buy => t.quantity
    | .sell => -t.quantity
  else 0

/-- Contribution of one trade-dict entry to the signed sum for `sym`. -/
def symContrib (sym : String) (e : String × Trade) : ℚ :=
  if e.2.symbol = sym then signedQty e.2 else 0

/-- Signed sum of the quantities of all EXECUTED trades on `sym`. -/
def signedSum (trades : List (String × Trade)) (sym : String) : ℚ :=
  (trades.map (symContrib sym)).sum

/-- Signed quantity a trade applies to its symbol's position when settled. -/
def tradeDelta (t : Trade) : ℚ :=
  match t.trade_type with
  | .buy => t.quantity
  | .sell => -t.quantity

/-- A ledger holding one CANCELLED trade (used to instantiate theorems). -/
def sW2 : TradeManager :=
  ⟨[("t", ⟨"t", "A", TradeType.buy, 1, 1, 0, TradeStatus.cancelled⟩)], [], 0⟩

/-- Position quantity of a symbol as claim C1 reads it: the stored quantity,
or 0 when no record exists. -/
def posQtyD (s : TradeManager) (sym : String) : ℚ :=
  ((lookupA s.positions sym).map Position.quantity).getD 0

/-- The failure condition of claim C1, following the spec text: the id is
unknown, or the trade is not PENDING, or a BUY with balance <
settlement price × quantity, or a SELL whose symbol's position quantity
(0 when absent) is < the trade quantity. -/
def specFailCondC1 (s : TradeManager) (tid : String) (pr : Option ℚ) : Prop :=
  lookupA s.trades tid = none ∨
  ∃ t : Trade, lookupA s.trades tid = some t ∧
    (t.status ≠ TradeStatus.pending ∨
     (t.trade_type = TradeType.buy ∧ s.balance < effPrice pr t.price * t.quantity) ∨
     (t.trade_type = TradeType.sell ∧ posQtyD s t.symbol < t.quantity))

/-- The failure condition `execute_trade` actually implements: as claim C1,
except that a SELL also fails whenever its symbol has no position record. -/
def execFailCond (s : TradeManager) (tid : String) (pr : Option ℚ) : Prop :=
  lookupA s.trades tid = none ∨
  ∃ t : Trade, lookupA s.trades tid = some t ∧
    (t.status ≠ TradeStatus.pending ∨
     (t.trade_type = TradeType.buy ∧ s.balance < effPrice pr t.price * t.quantity) ∨
     (t.trade_type = TradeType.sell ∧
       (lookupA s.positions t.symbol = none ∨
        ∃ p : Position, lookupA s.positions t.symbol = some p ∧
          p.quantity < t.quantity)))

/-- The pending SELL trade of the C1 counterexample: quantity 0, no position
record for its symbol. -/
def tC1 : Trade := ⟨"t", "A", TradeType.sell, 0, 1, 0, TradeStatus.pending⟩

/-- C1 counterexample state: one PENDING SELL of quantity 0 on a symbol with
no position record. -/
def sC1 : TradeManager := ⟨[("t", tC1)], [], 0⟩

/-- The pending BUY trade of the C1 witness. -/
def tW1 : Trade := ⟨"t", "A", TradeType.buy, 2, 3, 0, TradeStatus.pending⟩

/-- C1 witness state: a PENDING BUY of quantity 2 at price 3, balance 10. -/
def sW1 : TradeManager := ⟨[("t", tW1)], [], 10⟩

/-- State after placing a first trade `("A", BUY, 1, 5)` at clock reading 7. -/
def sC6a : TradeManager := (place_trade initTM "A" TradeType.buy 1 5 7).2

/-- State after then placing a second trade `("A", BUY, 2, 6)` at the same
clock reading 7. -/
def sC6b : TradeManager := (place_trade sC6a "A" TradeType.buy 2 6 7).2

/-- The inductive invariant of reachable ledgers: non-negative balance,
non-negative position quantities, and every stored trade has positive
quantity and non-negative price. -/
def LedgerInv (s : TradeManager) : Prop :=
  0 ≤ s.balance ∧
  (∀ e ∈ s.positions, 0 ≤ (Prod.snd e).quantity) ∧
  (∀ e ∈ s.trades, 0 < (Prod.snd e).quantity ∧ 0 ≤ (Prod.snd e).price)

/-- The inductive invariant behind claim C4: every stored position's quantity
is the signed sum of EXECUTED trades on its symbol, and a symbol with no
position record has no EXECUTED trades at all. -/
def PosSumInv (s : TradeManager) : Prop :=
  ∀ sym : String,
    (∀ p : Position, lookupA s.positions sym = some p →
      p.quantity = signedSum s.trades sym) ∧
    (lookupA s.positions sym = none →
      ∀ e ∈ s.trades, (Prod.snd e).symbol = sym →
        (Prod.snd e).status ≠ TradeStatus.executed)

/-- The trade placed in the C4 example runs: BUY 1 of "A" at price 0. -/
def tW4 : Trade := ⟨"A_buy_0", "A", TradeType.buy, 1, 0, 0, TradeStatus.pending⟩

/-- Ledger after placing the order of `tW4`. -/
def sW4b : TradeManager := applyOp initTM (Op.placeTrade "A" TradeType.buy 1 0 0)

/-- Ledger after then settling it (cost 0, so the empty balance suffices). -/
def sW4 : TradeManager := applyOp sW4b (Op.settle "A_buy_0" none)

/-- Ledger after a second `place_trade` call with the same symbol, side and
timestamp, which overwrites the EXECUTED trade with a fresh PENDING one. -/
def sC4 : TradeManager := applyOp sW4 (Op.placeTrade "A" TradeType.buy 1 0 0)

/-- A realtime trade event from the external feed (spec §6):
`{symbol, side, quantity, price, externalId}`. -/
structure FeedEvent : Type where
  symbol : String
  side : TradeType
  quantity : ℚ
  price : ℚ
  externalId : String

/-- A PENDING order matching a feed event: same symbol, side and quantity. -/
def matchesEvent (ev : FeedEvent) (t : Trade) : Bool :=
  decide (t.symbol = ev.symbol) && decide (t.trade_type = ev.side) &&
    decide (t.quantity = ev.quantity) && decide (t.status = TradeStatus.pending)

/-- Modelled from the spec: `TradeManager.process_realtime_trade` is invoked
by `main.py` as the realtime-feed callback but its body is absent from the
source.  Spec §4.3: each inbound event is mapped to a settlement call against
an existing matching PENDING order, and when no matching PENDING order exists
the pipeline first records the order, then immediately settles it at the
event's reported price. -/
def process_realtime_trade (s : TradeManager) (ev : FeedEvent) (now : ℕ) :
    TradeManager :=
  match s.trades.find? (fun e => matchesEvent ev (Prod.snd e)) with
  | some e => (execute_trade s e.1 (some ev.price)).2
  | none =>
    let r := place_trade s ev.symbol ev.side ev.quantity ev.price now
    (execute_trade r.2 r.1 (some ev.price)).2

/-- The feed event of the C8 scenario: "BAR" BUY quantity 4 at price 2. -/
def evC8 : FeedEvent := ⟨"BAR", TradeType.buy, 4, 2, "x"⟩

/-- A fresh ledger with balance 10, enough to settle the C8 event. -/
def sW8 : TradeManager := ⟨[], [], 10⟩

theorem lookupA_insertA_self {α : Type} (l : List (String × α)) (k : String) (v : α) :
    lookupA (insertA l k v) k = some v := by
  induction l with
  | nil => simp [insertA, lookupA]
  | cons e rest ih =>
    by_cases h : e.1 = k
    · simp [insertA, h, lookupA]
    · simp [insertA, h, lookupA, ih]

theorem lookupA_insertA_ne {α : Type} (l : List (String × α)) (k k' : String) (v : α)
    (h : k' ≠ k) : lookupA (insertA l k v) k' = lookupA l k' := by
  induction l with
  | nil => simp [insertA, lookupA, Ne.symm h]
  | cons e rest ih =>
    by_cases he : e.1 = k
    · subst he
      simp [insertA, lookupA, Ne.symm h]
    · simp [insertA, he, lookupA, ih]

theorem insertA_of_lookupA_none {α : Type} (l : List (String × α)) (k : String) (v : α)
    (h : lookupA l k = none) : insertA l k v = l ++ [(k, v)] := by
  induction l with
  | nil => simp [insertA]
  | cons e rest ih =>
    by_cases he : e.1 = k
    · simp [lookupA, he] at h
    · simp [lookupA, he] at h
      simp [insertA, he, ih h]

theorem mem_insertA {α : Type} {l : List (String × α)} {k : String} {v : α}
    {e : String × α} (h : e ∈ insertA l k v) : e ∈ l ∨ e = (k, v) := by
  induction l with
  | nil => simpa [insertA] using h
  | cons f rest ih =>
    by_cases hf : f.1 = k
    · simp [insertA, hf] at h
      rcases h with h | h
      · right; simp [h]
      · left; simp [h]
    · simp [insertA, hf] at h
      rcases h with h | h
      · left; simp [h]
      · rcases ih h with h' | h'
        · left; simp [h']
        · right; exact h'

theorem mem_keys_insertA {α : Type} {l : List (String × α)} {k a : String} {v : α}
    (h : a ∈ (insertA l k v).map Prod.fst) : a ∈ l.map Prod.fst ∨ a = k := by
  rcases List.mem_map.mp h with ⟨x, hx, hxa⟩
  rcases mem_insertA hx with hm | hm
  · left
    exact List.mem_map.mpr ⟨x, hm, hxa⟩
  · right
    rw [← hxa, hm]

theorem nodupKeys_insertA {α : Type} {l : List (String × α)} (k : String) (v : α)
    (h : nodupKeys l) : nodupKeys (insertA l k v) := by
  induction l with
  | nil => simp [insertA, nodupKeys]
  | cons e rest ih =>
    unfold nodupKeys at h ⊢
    rw [List.map_cons, List.nodup_cons] at h
    by_cases he : e.1 = k
    · subst he
      rw [show insertA (e :: rest) e.1 v = (e.1, v) :: rest by simp [insertA]]
      rw [List.map_cons, List.nodup_cons]
      exact h
    · rw [show insertA (e :: rest) k v = e :: insertA rest k v by simp [insertA, he]]
      rw [List.map_cons, List.nodup_cons]
      refine ⟨?_, ih h.2⟩
      intro hmem
      rcases mem_keys_insertA hmem with hm | hm
      · exact h.1 hm
      · exact he hm

theorem lookupA_eq_some_mem {α : Type} {l : List (String × α)} {k : String} {v : α}
    (h : lookupA l k = some v) : (k, v) ∈ l := by
  induction l with
  | nil => simp [lookupA] at h
  | cons e rest ih =>
    by_cases he : e.1 = k
    · simp [lookupA, he] at h
      have hev : (k, v) = e := by rw [← he, ← h]
      rw [hev]
      exact List.mem_cons_self e rest
    · simp [lookupA, he] at h
      exact List.mem_cons_of_mem e (ih h)

theorem lookupA_isSome_of_mem {α : Type} {l : List (String × α)} {e : String × α}
    (h : e ∈ l) : lookupA l e.1 ≠ none := by
  induction l with
  | nil => simp at h
  | cons f rest ih =>
    rcases List.mem_cons.mp h with h | h
    · subst h
      simp [lookupA]
    · by_cases hf : f.1 = e.1
      · simp [lookupA, hf]
      · simp [lookupA, hf]
        exact ih h

theorem sum_map_insertA {α : Type} (g : String × α → ℚ) (l : List (String × α))
    (k : String) (v w : α) (hv : lookupA l k = some v) :
    ((insertA l k w).map g).sum = (l.map g).sum - g (k, v) + g (k, w) := by
  induction l with
  | nil => simp [lookupA] at hv
  | cons e rest ih =>
    by_cases he : e.1 = k
    · simp [lookupA, he] at hv
      have hev : e = (k, v) := by
        rw [← he, ← hv]
      simp [insertA, he, hev]
      ring
    · simp [lookupA, he] at hv
      simp [insertA, he, ih hv]
      ring

theorem sum_map_insertA_none {α : Type} (g : String × α → ℚ) (l : List (String × α))
    (k : String) (w : α) (hv : lookupA l k = none) :
    ((insertA l k w).map g).sum = (l.map g).sum + g (k, w) := by
  rw [insertA_of_lookupA_none l k w hv]
  simp

theorem exec_of_unknown (s : TradeManager) (tid : String) (pr : Option ℚ)
    (h : lookupA s.trades tid = none) :
    execute_trade s tid pr = (false, s) := by
  unfold execute_trade
  rw [h]

theorem exec_of_nonpending (s : TradeManager) (tid : String) (pr : Option ℚ)
    (t : Trade) (h : lookupA s.trades tid = some t)
    (hs : t.status ≠ TradeStatus.pending) :
    execute_trade s tid pr = (false, s) := by
  unfold execute_trade
  rw [h]
  simp [hs]

theorem exec_buy_insufficient (s : TradeManager) (tid : String) (pr : Option ℚ)
    (t : Trade) (h : lookupA s.trades tid = some t)
    (hs : t.status = TradeStatus.pending) (hb : t.trade_type = TradeType.buy)
    (hc : s.balance < effPrice pr t.price * t.quantity) :
    execute_trade s tid pr = (false, s) := by
  unfold execute_trade
  rw [h]
  simp [hs, hb, hc]

theorem exec_buy_success (s : TradeManager) (tid : String) (pr : Option ℚ)
    (t : Trade) (h : lookupA s.trades tid = some t)
    (hs : t.status = TradeStatus.pending) (hb : t.trade_type = TradeType.buy)
    (hc : ¬ s.balance < effPrice pr t.price * t.quantity) :
    execute_trade s tid pr =
      (true,
       { trades := insertA s.trades tid
           { t with status := TradeStatus.executed, price := effPrice pr t.price },
         positions := insertA s.positions t.symbol
           (updatePositionEntry (priorPos s t.symbol) t.quantity (effPrice pr t.price)),
         balance := s.balance - effPrice pr t.price * t.quantity }) := by
  unfold execute_trade
  rw [h]
  simp [hs, hb, hc, update_position, priorPos]

theorem exec_sell_insufficient (s : TradeManager) (tid : String) (pr : Option ℚ)
    (t : Trade) (h : lookupA s.trades tid = some t)
    (hs : t.status = TradeStatus.pending) (hb : t.trade_type = TradeType.sell)
    (hc : has_sufficient_position s t.symbol t.quantity = false) :
    execute_trade s tid pr = (false, s) := by
  unfold execute_trade
  rw [h]
  simp [hs, hb, hc]

theorem exec_sell_success (s : TradeManager) (tid : String) (pr : Option ℚ)
    (t : Trade) (h : lookupA s.trades tid = some t)
    (hs : t.status = TradeStatus.pending) (hb : t.trade_type = TradeType.sell)
    (hc : has_sufficient_position s t.symbol t.quantity = true) :
    execute_trade s tid pr =
      (true,
       { trades := insertA s.trades tid
           { t with status := TradeStatus.executed, price := effPrice pr t.price },
         positions := insertA s.positions t.symbol
           (updatePositionEntry (priorPos s t.symbol) (-t.quantity) (effPrice pr t.price)),
         balance := s.balance + effPrice pr t.price * t.quantity }) := by
  unfold execute_trade
  rw [h]
  simp [hs, hb, hc, update_position, priorPos]

theorem cancel_of_unknown (s : TradeManager) (tid : String)
    (h : lookupA s.trades tid = none) :
    cancel_trade s tid = (false, s) := by
  unfold cancel_trade
  rw [h]

theorem cancel_of_nonpending (s : TradeManager) (tid : String)
    (t : Trade) (h : lookupA s.trades tid = some t)
    (hs : t.status ≠ TradeStatus.pending) :
    cancel_trade s tid = (false, s) := by
  unfold cancel_trade
  rw [h]
  simp [hs]

theorem cancel_of_pending (s : TradeManager) (tid : String)
    (t : Trade) (h : lookupA s.trades tid = some t)
    (hs : t.status = TradeStatus.pending) :
    cancel_trade s tid =
      (true, ⟨insertA s.trades tid ({ t with status := TradeStatus.cancelled }),
        s.positions, s.balance⟩) := by
  unfold cancel_trade
  rw [h]
  simp [hs]

theorem exec_false_eq (s : TradeManager) (tid : String) (pr : Option ℚ)
    (h : (execute_trade s tid pr).1 = false) :
    execute_trade s tid pr = (false, s) := by
  rcases hl : lookupA s.trades tid with _ | t
  · exact exec_of_unknown s tid pr hl
  · by_cases hs : t.status = TradeStatus.pending
    · cases htt : t.trade_type with
      | buy =>
        by_cases hc : s.balance < effPrice pr t.price * t.quantity
        · exact exec_buy_insufficient s tid pr t hl hs htt hc
        · rw [exec_buy_success s tid pr t hl hs htt hc] at h
          simp at h
      | sell =>
        cases hsuf : has_sufficient_position s t.symbol t.quantity with
        | false => exact exec_sell_insufficient s tid pr t hl hs htt hsuf
        | true =>
          rw [exec_sell_success s tid pr t hl hs htt hsuf] at h
          simp at h
    · exact exec_of_nonpending s tid pr t hl hs

theorem exec_true_cases (s : TradeManager) (tid : String) (pr : Option ℚ)
    (h : (execute_trade s tid pr).1 = true) :
    ∃ t : Trade, lookupA s.trades tid = some t ∧ t.status = TradeStatus.pending ∧
      (execute_trade s tid pr).2.trades =
        insertA s.trades tid
          ({ t with status := TradeStatus.executed, price := effPrice pr t.price }) ∧
      (execute_trade s tid pr).2.positions =
        insertA s.positions t.symbol
          (updatePositionEntry (priorPos s t.symbol) (tradeDelta t) (effPrice pr t.price)) ∧
      (execute_trade s tid pr).2.balance =
        s.balance - effPrice pr t.price * tradeDelta t ∧
      (t.trade_type = TradeType.buy → ¬ s.balance < effPrice pr t.price * t.quantity) ∧
      (t.trade_type = TradeType.sell →
        has_sufficient_position s t.symbol t.quantity = true) := by
  rcases hl : lookupA s.trades tid with _ | t
  · rw [exec_of_unknown s tid pr hl] at h
    simp at h
  · by_cases hs : t.status = TradeStatus.pending
    · cases htt : t.trade_type with
      | buy =>
        by_cases hc : s.balance < effPrice pr t.price * t.quantity
        · rw [exec_buy_insufficient s tid pr t hl hs htt hc] at h
          simp at h
        · refine ⟨t, rfl, hs, ?_⟩
          rw [exec_buy_success s tid pr t hl hs htt hc]
          refine ⟨rfl, ?_, ?_, fun _ => hc, fun hsell => ?_⟩
          · simp [tradeDelta, htt]
          · simp [tradeDelta, htt]
          · rw [htt] at hsell
            cases hsell
      | sell =>
        cases hsuf : has_sufficient_position s t.symbol t.quantity with
        | false =>
          rw [exec_sell_insufficient s tid pr t hl hs htt hsuf] at h
          simp at h
        | true =>
          refine ⟨t, rfl, hs, ?_⟩
          rw [exec_sell_success s tid pr t hl hs htt hsuf]
          refine ⟨rfl, ?_, ?_, fun hbuy => ?_, fun _ => hsuf⟩
          · simp [tradeDelta, htt]
          · simp [tradeDelta, htt]
          · rw [htt] at hbuy
            cases hbuy
    · rw [exec_of_nonpending s tid pr t hl hs] at h
      simp at h

theorem cancel_false_eq (s : TradeManager) (tid : String)
    (h : (cancel_trade s tid).1 = false) :
    cancel_trade s tid = (false, s) := by
  rcases hl : lookupA s.trades tid with _ | t
  · exact cancel_of_unknown s tid hl
  · by_cases hs : t.status = TradeStatus.pending
    · rw [cancel_of_pending s tid t hl hs] at h
      simp at h
    · exact cancel_of_nonpending s tid t hl hs

theorem cancel_true_cases (s : TradeManager) (tid : String)
    (h : (cancel_trade s tid).1 = true) :
    ∃ t : Trade, lookupA s.trades tid = some t ∧ t.status = TradeStatus.pending ∧
      (cancel_trade s tid).2 =
        ⟨insertA s.trades tid ({ t with status := TradeStatus.cancelled }),
         s.positions, s.balance⟩ := by
  rcases hl : lookupA s.trades tid with _ | t
  · rw [cancel_of_unknown s tid hl] at h
    simp at h
  · by_cases hs : t.status = TradeStatus.pending
    · refine ⟨t, rfl, hs, ?_⟩
      rw [cancel_of_pending s tid t hl hs]
    · rw [cancel_of_nonpending s tid t hl hs] at h
      simp at h

/-- C10: for every ledger state and trade id, calling `execute_trade` with an
explicitly supplied settlement price of 0 behaves exactly as calling it with
no price: Python's `execution_price or trade.price` treats `0` as absent, so
the total cost, the position update, and the recorded execution price all use
the trade's originally requested price. -/
theorem execute_trade_zero_price_defaults (s : TradeManager) (tid : String) :
    execute_trade s tid (some 0) = execute_trade s tid none := by
  unfold execute_trade
  rcases lookupA s.trades tid with _ | t
  · rfl
  · simp [effPrice]

/-- C2: a trade's status changes at most once and only away from PENDING:
a settle or cancel on a non-PENDING (or unknown) id fails and leaves the
state untouched; a successful settle flips PENDING to EXECUTED and a
successful cancel flips PENDING to CANCELLED; neither call touches any other
trade's status; and cancelling a PENDING id twice returns success then
failure, the status being CANCELLED after the first call. -/
theorem trade_status_single_transition (s : TradeManager) (tid : String)
    (pr : Option ℚ) :
    (statusOf s tid ≠ some TradeStatus.pending →
      execute_trade s tid pr = (false, s) ∧ cancel_trade s tid = (false, s)) ∧
    ((execute_trade s tid pr).1 = true →
      statusOf s tid = some TradeStatus.pending ∧
      statusOf (execute_trade s tid pr).2 tid = some TradeStatus.executed) ∧
    ((cancel_trade s tid).1 = true →
      statusOf s tid = some TradeStatus.pending ∧
      statusOf (cancel_trade s tid).2 tid = some TradeStatus.cancelled) ∧
    (∀ tid2 : String, tid2 ≠ tid →
      statusOf (execute_trade s tid pr).2 tid2 = statusOf s tid2 ∧
      statusOf (cancel_trade s tid).2 tid2 = statusOf s tid2) ∧
    (statusOf s tid = some TradeStatus.pending →
      (cancel_trade s tid).1 = true ∧
      statusOf (cancel_trade s tid).2 tid = some TradeStatus.cancelled ∧
      cancel_trade (cancel_trade s tid).2 tid = (false, (cancel_trade s tid).2)) := by
  refine ⟨?_, ?_, ?_, ?_, ?_⟩
  · intro hnp
    rcases hl : lookupA s.trades tid with _ | t
    · exact ⟨exec_of_unknown s tid pr hl, cancel_of_unknown s tid hl⟩
    · have hs : t.status ≠ TradeStatus.pending := by
        intro hh
        apply hnp
        simp [statusOf, hl, hh]
      exact ⟨exec_of_nonpending s tid pr t hl hs, cancel_of_nonpending s tid t hl hs⟩
  · intro htrue
    rcases exec_true_cases s tid pr htrue with ⟨t, hl, hs, htr, _⟩
    constructor
    · simp [statusOf, hl, hs]
    · simp [statusOf, htr, lookupA_insertA_self]
  · intro htrue
    rcases cancel_true_cases s tid htrue with ⟨t, hl, hs, hpost⟩
    constructor
    · simp [statusOf, hl, hs]
    · simp [statusOf, hpost, lookupA_insertA_self]
  · intro tid2 hne
    constructor
    · cases hb : (execute_trade s tid pr).1 with
      | false => rw [exec_false_eq s tid pr hb]
      | true =>
        rcases exec_true_cases s tid pr hb with ⟨t, hl, hs, htr, _⟩
        simp [statusOf, htr, lookupA_insertA_ne _ _ _ _ hne]
    · cases hb : (cancel_trade s tid).1 with
      | false => rw [cancel_false_eq s tid hb]
      | true =>
        rcases cancel_true_cases s tid hb with ⟨t, hl, hs, hpost⟩
        simp [statusOf, hpost, lookupA_insertA_ne _ _ _ _ hne]
  · intro hp
    rcases hl : lookupA s.trades tid with _ | t
    · simp [statusOf, hl] at hp
    · have hs : t.status = TradeStatus.pending := by
        simp [statusOf, hl] at hp
        exact hp
      rw [cancel_of_pending s tid t hl hs]
      refine ⟨rfl, ?_, ?_⟩
      · simp [statusOf, lookupA_insertA_self]
      · apply cancel_of_nonpending
        · exact lookupA_insertA_self s.trades tid _
        · simp

theorem trade_status_single_transition_w :
    execute_trade sW2 "t" none = (false, sW2) ∧ cancel_trade sW2 "t" = (false, sW2) :=
  (trade_status_single_transition sW2 "t" none).1 (by decide)

/-- C5: `_update_position` with signed quantity change `D` at price `P`:
when the prior quantity is zero the new quantity is `D` and the new average
price is `P`; otherwise the new quantity is `prior+D` and the new average is
`(prior×avg + D×P)/(prior+D)`, except that it resets to zero when the
resulting quantity is zero; the market value always becomes
`new quantity × P`. -/
theorem update_position_avg_price (s : TradeManager) (sym : String) (D P : ℚ) :
    lookupA (update_position s sym D P).positions sym =
      some (updatePositionEntry (priorPos s sym) D P) ∧
    ((priorPos s sym).quantity = 0 →
      (updatePositionEntry (priorPos s sym) D P).quantity = D ∧
      (updatePositionEntry (priorPos s sym) D P).avg_price = P) ∧
    ((priorPos s sym).quantity ≠ 0 →
      (updatePositionEntry (priorPos s sym) D P).quantity =
        (priorPos s sym).quantity + D ∧
      ((priorPos s sym).quantity + D ≠ 0 →
        (updatePositionEntry (priorPos s sym) D P).avg_price =
          ((priorPos s sym).quantity * (priorPos s sym).avg_price + D * P) /
            ((priorPos s sym).quantity + D)) ∧
      ((priorPos s sym).quantity + D = 0 →
        (updatePositionEntry (priorPos s sym) D P).avg_price = 0)) ∧
    (updatePositionEntry (priorPos s sym) D P).market_value =
      (updatePositionEntry (priorPos s sym) D P).quantity * P := by
  refine ⟨?_, ?_, ?_, ?_⟩
  · simp [update_position, lookupA_insertA_self]
  · intro h0
    simp [updatePositionEntry, h0]
  · intro h0
    refine ⟨?_, ?_, ?_⟩
    · simp [updatePositionEntry, h0]
    · intro hq
      simp [updatePositionEntry, h0, hq]
    · intro hq
      simp [updatePositionEntry, h0, hq]
  · by_cases h0 : (priorPos s sym).quantity = 0 <;> simp [updatePositionEntry, h0]

theorem update_position_avg_price_w :
    (updatePositionEntry (priorPos initTM "A") 2 3).quantity = 2 ∧
    (updatePositionEntry (priorPos initTM "A") 2 3).avg_price = 3 :=
  (update_position_avg_price initTM "A" 2 3).2.1 rfl

theorem hsp_false_iff (s : TradeManager) (sym : String) (q : ℚ) :
    has_sufficient_position s sym q = false ↔
      (lookupA s.positions sym = none ∨
       ∃ p : Position, lookupA s.positions sym = some p ∧ p.quantity < q) := by
  unfold has_sufficient_position
  rcases h : lookupA s.positions sym with _ | p
  · simp
  · simp [not_le]

/-- C1 is too narrow: in `sC1` the claim's failure condition is false (the
position quantity 0 is not `<` the SELL quantity 0), yet `execute_trade`
returns failure, because `_has_sufficient_position` fails whenever the
symbol has no position record at all. -/
theorem execute_trade_fail_iff_ce :
    ¬ specFailCondC1 sC1 "t" none ∧ execute_trade sC1 "t" none = (false, sC1) := by
  constructor
  · intro hcond
    rcases hcond with hnone | ⟨t, hl, hrest⟩
    · simp [sC1, lookupA] at hnone
    · have ht : t = tC1 := by
        simp [sC1, lookupA] at hl
        exact hl.symm
      subst ht
      rcases hrest with hs | ⟨hb, _⟩ | ⟨_, hq⟩
      · exact hs rfl
      · simp [tC1] at hb
      · simp [posQtyD, sC1, tC1, lookupA] at hq
  · exact exec_sell_insufficient sC1 "t" none tC1 rfl rfl rfl rfl

/-- C1 (amended): `execute_trade` returns failure with no mutation exactly
when the id is unknown, the trade is not PENDING, a BUY has balance <
settlement price × quantity, or a SELL whose symbol has no position record or
a record with quantity < the trade quantity; otherwise it succeeds
atomically: balance and position are updated together in the returned state,
the trade's status flips to EXECUTED with the effective settlement price
(defaulting to the originally requested price) recorded, and no other trade
is touched. -/
theorem execute_trade_fail_iff (s : TradeManager) (tid : String) (pr : Option ℚ) :
    (execute_trade s tid pr = (false, s) ↔ execFailCond s tid pr) ∧
    (∀ t : Trade, lookupA s.trades tid = some t →
      (execute_trade s tid pr).1 = true →
      (execute_trade s tid pr).2.balance =
        s.balance - effPrice pr t.price * tradeDelta t ∧
      (execute_trade s tid pr).2.positions = insertA s.positions t.symbol
        (updatePositionEntry (priorPos s t.symbol) (tradeDelta t)
          (effPrice pr t.price)) ∧
      lookupA (execute_trade s tid pr).2.trades tid =
        some ({ t with status := TradeStatus.executed,
                       price := effPrice pr t.price }) ∧
      ∀ tid2 : String, tid2 ≠ tid →
        lookupA (execute_trade s tid pr).2.trades tid2 = lookupA s.trades tid2) := by
  constructor
  · constructor
    · intro hF
      rcases hl : lookupA s.trades tid with _ | t
      · exact Or.inl hl
      · refine Or.inr ⟨t, hl, ?_⟩
        by_cases hs : t.status = TradeStatus.pending
        · cases htt : t.trade_type with
          | buy =>
            by_cases hc : s.balance < effPrice pr t.price * t.quantity
            · exact Or.inr (Or.inl ⟨rfl, hc⟩)
            · rw [exec_buy_success s tid pr t hl hs htt hc] at hF
              simp at hF
          | sell =>
            cases hsuf : has_sufficient_position s t.symbol t.quantity with
            | false =>
              exact Or.inr (Or.inr ⟨rfl, (hsp_false_iff s t.symbol t.quantity).mp hsuf⟩)
            | true =>
              rw [exec_sell_success s tid pr t hl hs htt hsuf] at hF
              simp at hF
        · exact Or.inl hs
    · intro hC
      rcases hC with hnone | ⟨t, hl, hrest⟩
      · exact exec_of_unknown s tid pr hnone
      · by_cases hst : t.status = TradeStatus.pending
        · rcases hrest with hs | ⟨hb, hc⟩ | ⟨hb, hpos⟩
          · exact absurd hst hs
          · exact exec_buy_insufficient s tid pr t hl hst hb hc
          · exact exec_sell_insufficient s tid pr t hl hst hb
              ((hsp_false_iff s t.symbol t.quantity).mpr hpos)
        · exact exec_of_nonpending s tid pr t hl hst
  · intro t hl htrue
    rcases exec_true_cases s tid pr htrue with
      ⟨t', hl', _, htr, hposx, hbal, _, _⟩
    have ht : t' = t := by
      rw [hl] at hl'
      exact (Option.some.inj hl').symm
    subst ht
    refine ⟨hbal, hposx, ?_, ?_⟩
    · rw [htr]
      exact lookupA_insertA_self s.trades tid _
    · intro tid2 hne
      rw [htr]
      exact lookupA_insertA_ne s.trades tid tid2 _ hne

theorem execute_trade_fail_iff_w :
    (execute_trade sW1 "t" none).2.balance = 4 := by
  have hc : ¬ sW1.balance < effPrice none tW1.price * tW1.quantity := by
    norm_num [sW1, tW1, effPrice]
  have htrue : (execute_trade sW1 "t" none).1 = true := by
    rw [exec_buy_success sW1 "t" none tW1 rfl rfl rfl hc]
  have h := (execute_trade_fail_iff sW1 "t" none).2 tW1 rfl htrue
  rw [h.1]
  norm_num [sW1, tW1, tradeDelta, effPrice]

/-- C6 is false on the code: two `place_trade` calls with the same symbol,
side and creation timestamp derive the same id, and the second call
overwrites the first trade, leaving a single-entry trade dict. -/
theorem place_trade_unique_ids_ce :
    (place_trade initTM "A" TradeType.buy 1 5 7).1 =
      (place_trade sC6a "A" TradeType.buy 2 6 7).1 ∧
    sC6b.trades =
      [("A_buy_7", ⟨"A_buy_7", "A", TradeType.buy, 2, 6, 7, TradeStatus.pending⟩)] := by
  constructor
  · rfl
  · rfl

/-- C6 (amended): trade ids are derived deterministically as
`symbol_side_timestamp`, so two `place_trade` calls with the same symbol,
side and timestamp return the same id and the second overwrites the first
trade; trades stored under any other id are never removed or altered. -/
theorem place_trade_same_key_overwrites (s : TradeManager) (sym : String)
    (tt : TradeType) (q1 p1 q2 p2 : ℚ) (n : ℕ) :
    (place_trade s sym tt q1 p1 n).1 =
      (place_trade (place_trade s sym tt q1 p1 n).2 sym tt q2 p2 n).1 ∧
    lookupA (place_trade (place_trade s sym tt q1 p1 n).2 sym tt q2 p2 n).2.trades
        (mkTradeId sym tt n) =
      some ⟨mkTradeId sym tt n, sym, tt, q2, p2, n, TradeStatus.pending⟩ ∧
    (∀ tid2 : String, tid2 ≠ mkTradeId sym tt n →
      lookupA (place_trade (place_trade s sym tt q1 p1 n).2 sym tt q2 p2 n).2.trades
          tid2 =
        lookupA s.trades tid2) := by
  refine ⟨rfl, ?_, ?_⟩
  · simp [place_trade, lookupA_insertA_self]
  · intro tid2 hne
    simp [place_trade, lookupA_insertA_ne _ _ _ _ hne]

theorem place_trade_same_key_overwrites_w :
    lookupA sC6b.trades "A_buy_7" =
      some ⟨"A_buy_7", "A", TradeType.buy, 2, 6, 7, TradeStatus.pending⟩ ∧
    lookupA sC6b.trades "X" = lookupA initTM.trades "X" := by
  have h := place_trade_same_key_overwrites initTM "A" TradeType.buy 1 5 2 6 7
  exact ⟨h.2.1, h.2.2 "X" (by decide)⟩

/-- C7 is false on the code for orders: `place_trade` performs no input
validation, so placing a trade with the non-positive quantity −1 changes the
trade set. -/
theorem input_validation_ce :
    (place_trade initTM "A" TradeType.buy (-1) 1 0).2.trades ≠ initTM.trades := by
  simp [place_trade, initTM, insertA]

/-- C7 (amended): `add_funds` rejects non-positive amounts with no state
change, but `place_trade` performs no validation at all: for every quantity,
including non-positive ones, it records a PENDING trade under its derived id
and returns that id. -/
theorem input_validation_behavior (s : TradeManager) (amount : ℚ) (sym : String)
    (tt : TradeType) (q p : ℚ) (n : ℕ) :
    (amount ≤ 0 → add_funds s amount = s) ∧
    lookupA (place_trade s sym tt q p n).2.trades (mkTradeId sym tt n) =
      some ⟨mkTradeId sym tt n, sym, tt, q, p, n, TradeStatus.pending⟩ ∧
    (place_trade s sym tt q p n).1 = mkTradeId sym tt n := by
  refine ⟨?_, ?_, rfl⟩
  · intro h
    unfold add_funds
    rw [if_neg (not_lt.mpr h)]
  · simp [place_trade, lookupA_insertA_self]

theorem input_validation_behavior_w :
    add_funds initTM (-3) = initTM ∧
    lookupA (place_trade initTM "A" TradeType.buy (-1) 1 0).2.trades "A_buy_0" =
      some ⟨"A_buy_0", "A", TradeType.buy, -1, 1, 0, TradeStatus.pending⟩ := by
  have h := input_validation_behavior initTM (-3) "A" TradeType.buy (-1) 1 0
  exact ⟨h.1 (by norm_num), h.2.1⟩

theorem hsp_true_iff (s : TradeManager) (sym : String) (q : ℚ) :
    has_sufficient_position s sym q = true ↔
      ∃ p : Position, lookupA s.positions sym = some p ∧ q ≤ p.quantity := by
  unfold has_sufficient_position
  rcases h : lookupA s.positions sym with _ | p
  · simp
  · simp

theorem hsp_false_of_lt (s : TradeManager) (sym : String) (q : ℚ)
    (h : posQtyD s sym < q) : has_sufficient_position s sym q = false := by
  rcases hlp : lookupA s.positions sym with _ | p
  · unfold has_sufficient_position
    rw [hlp]
  · refine (hsp_false_iff s sym q).mpr (Or.inr ⟨p, hlp, ?_⟩)
    simpa [posQtyD, hlp] using h

theorem ledgerInv_reachable (s : TradeManager) (h : Reachable s) : LedgerInv s := by
  induction h with
  | init =>
    refine ⟨le_refl 0, ?_, ?_⟩
    · intro e he
      simp [initTM] at he
    · intro e he
      simp [initTM] at he
  | step s1 op hr hv ih =>
    cases op with
    | addFunds a =>
      show LedgerInv (add_funds s1 a)
      unfold add_funds
      by_cases ha : 0 < a
      · rw [if_pos ha]
        exact ⟨add_nonneg ih.1 (le_of_lt ha), ih.2.1, ih.2.2⟩
      · rw [if_neg ha]
        exact ih
    | placeTrade sym tt q p n =>
      obtain ⟨hq, hp⟩ := hv
      show LedgerInv (place_trade s1 sym tt q p n).2
      refine ⟨ih.1, ih.2.1, ?_⟩
      intro e he
      simp only [place_trade] at he
      rcases mem_insertA he with hm | hm
      · exact ih.2.2 e hm
      · rw [hm]
        exact ⟨hq, hp⟩
    | settle tid pr =>
      show LedgerInv (execute_trade s1 tid pr).2
      cases hb : (execute_trade s1 tid pr).1 with
      | false =>
        have hpost : (execute_trade s1 tid pr).2 = s1 := by
          rw [exec_false_eq s1 tid pr hb]
        rw [hpost]
        exact ih
      | true =>
        rcases exec_true_cases s1 tid pr hb with
          ⟨t, hl, hs, htr, hpos, hbal, hbuy, hsell⟩
        have htq := ih.2.2 (tid, t) (lookupA_eq_some_mem hl)
        have heff : 0 ≤ effPrice pr t.price := by
          cases pr with
          | none => exact htq.2
          | some x =>
            by_cases hx : x = 0
            · simp only [effPrice, if_pos hx]
              exact htq.2
            · simp only [effPrice, if_neg hx]
              exact hv x rfl
        refine ⟨?_, ?_, ?_⟩
        · rw [hbal]
          cases htt : t.trade_type with
          | buy =>
            have hc := hbuy htt
            simp only [tradeDelta, htt]
            rw [not_lt] at hc
            linarith
          | sell =>
            have hmul : 0 ≤ effPrice pr t.price * t.quantity :=
              mul_nonneg heff (le_of_lt htq.1)
            simp only [tradeDelta, htt]
            have h1 := ih.1
            nlinarith
        · intro e he
          rw [hpos] at he
          rcases mem_insertA he with hm | hm
          · exact ih.2.1 e hm
          · rw [hm]
            show 0 ≤ (updatePositionEntry (priorPos s1 t.symbol) (tradeDelta t)
              (effPrice pr t.price)).quantity
            rcases hlp : lookupA s1.positions t.symbol with _ | p
            · have hprior : priorPos s1 t.symbol = ⟨t.symbol, 0, 0, 0⟩ := by
                simp [priorPos, hlp]
              cases htt : t.trade_type with
              | buy =>
                rw [hprior]
                simp [updatePositionEntry, tradeDelta, htt]
                exact le_of_lt htq.1
              | sell =>
                rcases (hsp_true_iff s1 t.symbol t.quantity).mp (hsell htt) with
                  ⟨p, hp, _⟩
                rw [hlp] at hp
                cases hp
            · have hprior : priorPos s1 t.symbol = p := by
                simp [priorPos, hlp]
              have hpq : 0 ≤ p.quantity := ih.2.1 (t.symbol, p) (lookupA_eq_some_mem hlp)
              rw [hprior]
              unfold updatePositionEntry
              by_cases hz : p.quantity = 0
              · rw [if_pos hz]
                cases htt : t.trade_type with
                | buy =>
                  simp [tradeDelta, htt]
                  exact le_of_lt htq.1
                | sell =>
                  rcases (hsp_true_iff s1 t.symbol t.quantity).mp (hsell htt) with
                    ⟨p', hp', hge⟩
                  rw [hlp] at hp'
                  have hpp : p' = p := Option.some.inj hp'.symm
                  rw [hpp, hz] at hge
                  exfalso
                  exact absurd (lt_of_lt_of_le htq.1 hge) (lt_irrefl 0)
              · rw [if_neg hz]
                cases htt : t.trade_type with
                | buy =>
                  simp [tradeDelta, htt]
                  have := le_of_lt htq.1
                  linarith
                | sell =>
                  rcases (hsp_true_iff s1 t.symbol t.quantity).mp (hsell htt) with
                    ⟨p', hp', hge⟩
                  rw [hlp] at hp'
                  have hpp : p' = p := Option.some.inj hp'.symm
                  rw [hpp] at hge
                  simp [tradeDelta, htt]
                  linarith
        · intro e he
          rw [htr] at he
          rcases mem_insertA he with hm | hm
          · exact ih.2.2 e hm
          · rw [hm]
            exact ⟨htq.1, heff⟩
    | cancel tid =>
      show LedgerInv (cancel_trade s1 tid).2
      cases hb : (cancel_trade s1 tid).1 with
      | false =>
        have hpost : (cancel_trade s1 tid).2 = s1 := by
          rw [cancel_false_eq s1 tid hb]
        rw [hpost]
        exact ih
      | true =>
        rcases cancel_true_cases s1 tid hb with ⟨t, hl, hs, hpost⟩
        have htq := ih.2.2 (tid, t) (lookupA_eq_some_mem hl)
        rw [hpost]
        refine ⟨ih.1, ih.2.1, ?_⟩
        intro e he
        simp only at he
        rcases mem_insertA he with hm | hm
        · exact ih.2.2 e hm
        · rw [hm]
          exact htq

/-- C3: in every state reachable by calls with positive quantities and
non-negative prices, the balance and every stored position quantity are
non-negative; moreover a BUY settlement whose cost would drive the balance
negative fails with no mutation, and a SELL settlement of more than the held
quantity fails with no mutation. -/
theorem reachable_nonneg (s : TradeManager) (h : Reachable s) :
    0 ≤ s.balance ∧
    (∀ (sym : String) (p : Position),
      lookupA s.positions sym = some p → 0 ≤ p.quantity) ∧
    (∀ (tid : String) (pr : Option ℚ) (t : Trade),
      lookupA s.trades tid = some t → t.trade_type = TradeType.buy →
      s.balance - effPrice pr t.price * t.quantity < 0 →
      execute_trade s tid pr = (false, s)) ∧
    (∀ (tid : String) (pr : Option ℚ) (t : Trade),
      lookupA s.trades tid = some t → t.trade_type = TradeType.sell →
      posQtyD s t.symbol < t.quantity →
      execute_trade s tid pr = (false, s)) := by
  have hi := ledgerInv_reachable s h
  refine ⟨hi.1, ?_, ?_, ?_⟩
  · intro sym p hlp
    exact hi.2.1 (sym, p) (lookupA_eq_some_mem hlp)
  · intro tid pr t hl hbuy hneg
    by_cases hst : t.status = TradeStatus.pending
    · exact exec_buy_insufficient s tid pr t hl hst hbuy (by linarith)
    · exact exec_of_nonpending s tid pr t hl hst
  · intro tid pr t hl hsell hlt
    by_cases hst : t.status = TradeStatus.pending
    · exact exec_sell_insufficient s tid pr t hl hst hsell
        (hsp_false_of_lt s t.symbol t.quantity hlt)
    · exact exec_of_nonpending s tid pr t hl hst

theorem reachable_nonneg_w : 0 ≤ initTM.balance :=
  (reachable_nonneg initTM Reachable.init).1

theorem symContrib_of_not_executed (sym : String) (k : String) (t : Trade)
    (h : t.status ≠ TradeStatus.executed) : symContrib sym (k, t) = 0 := by
  unfold symContrib signedQty
  rw [if_neg h]
  simp

theorem symContrib_of_ne_symbol (sym : String) (k : String) (t : Trade)
    (h : t.symbol ≠ sym) : symContrib sym (k, t) = 0 := by
  unfold symContrib
  rw [if_neg h]

theorem symContrib_executed_self (k : String) (t : Trade)
    (h : t.status = TradeStatus.executed) :
    symContrib t.symbol (k, t) = tradeDelta t := by
  unfold symContrib signedQty tradeDelta
  rw [if_pos rfl, if_pos h]

theorem signedSum_append_single (l : List (String × Trade)) (k : String)
    (t : Trade) (sym : String) :
    signedSum (l ++ [(k, t)]) sym = signedSum l sym + symContrib sym (k, t) := by
  unfold signedSum
  simp

theorem signedSum_insertA (trades : List (String × Trade)) (tid : String)
    (t t' : Trade) (sym : String) (hl : lookupA trades tid = some t) :
    signedSum (insertA trades tid t') sym =
      signedSum trades sym - symContrib sym (tid, t) + symContrib sym (tid, t') :=
  sum_map_insertA (symContrib sym) trades tid t t' hl

theorem signedSum_eq_zero_of (trades : List (String × Trade)) (sym : String)
    (h : ∀ e ∈ trades, (Prod.snd e).symbol = sym →
      (Prod.snd e).status ≠ TradeStatus.executed) :
    signedSum trades sym = 0 := by
  unfold signedSum
  apply List.sum_eq_zero
  intro x hx
  rcases List.mem_map.mp hx with ⟨e, he, hxe⟩
  rw [← hxe]
  by_cases hsym : (Prod.snd e).symbol = sym
  · exact symContrib_of_not_executed sym e.1 e.2 (h e he hsym)
  · exact symContrib_of_ne_symbol sym e.1 e.2 hsym

theorem posSumInv_reachableF (s : TradeManager) (h : ReachableF s) :
    PosSumInv s := by
  induction h with
  | init =>
    intro sym
    constructor
    · intro p hp
      simp [initTM, lookupA] at hp
    · intro _ e he
      simp [initTM] at he
  | step s1 op hr hf ih =>
    cases op with
    | addFunds a =>
      show PosSumInv (add_funds s1 a)
      unfold add_funds
      by_cases ha : 0 < a
      · rw [if_pos ha]
        exact ih
      · rw [if_neg ha]
        exact ih
    | placeTrade sym0 tt q p n =>
      show PosSumInv (place_trade s1 sym0 tt q p n).2
      have htr : (place_trade s1 sym0 tt q p n).2.trades =
          s1.trades ++ [(mkTradeId sym0 tt n,
            ⟨mkTradeId sym0 tt n, sym0, tt, q, p, n, TradeStatus.pending⟩)] := by
        simp only [place_trade]
        exact insertA_of_lookupA_none _ _ _ hf
      intro sym
      constructor
      · intro pp hp
        have hold := (ih sym).1 pp hp
        rw [hold, htr, signedSum_append_single,
          symContrib_of_not_executed sym _ _ (by simp)]
        ring
      · intro hnone e he
        rw [htr] at he
        rcases List.mem_append.mp he with hm | hm
        · exact (ih sym).2 hnone e hm
        · rw [List.mem_singleton.mp hm]
          simp
    | settle tid pr =>
      show PosSumInv (execute_trade s1 tid pr).2
      cases hb : (execute_trade s1 tid pr).1 with
      | false =>
        have hpost : (execute_trade s1 tid pr).2 = s1 := by
          rw [exec_false_eq s1 tid pr hb]
        rw [hpost]
        exact ih
      | true =>
        rcases exec_true_cases s1 tid pr hb with
          ⟨t, hl, hs, htr, hpos, hbal, hbuy, hsell⟩
        have hpend : t.status ≠ TradeStatus.executed := by
          rw [hs]
          simp
        have hcontrib : ∀ sym : String,
            signedSum (execute_trade s1 tid pr).2.trades sym =
              signedSum s1.trades sym +
                symContrib sym (tid,
                  { t with status := TradeStatus.executed,
                           price := effPrice pr t.price }) := by
          intro sym
          rw [htr, signedSum_insertA s1.trades tid t _ sym hl,
            symContrib_of_not_executed sym tid t hpend]
          ring
        intro sym
        by_cases hsym : t.symbol = sym
        · subst hsym
          constructor
          · intro pp hp
            rw [hpos] at hp
            rw [lookupA_insertA_self] at hp
            have hpp := Option.some.inj hp.symm
            have hcsym : symContrib t.symbol (tid,
                { t with status := TradeStatus.executed,
                         price := effPrice pr t.price }) = tradeDelta t := by
              unfold symContrib signedQty tradeDelta
              simp
            rw [hpp, hcontrib t.symbol, hcsym]
            rcases hlp : lookupA s1.positions t.symbol with _ | q0
            · have hzero : signedSum s1.trades t.symbol = 0 :=
                signedSum_eq_zero_of s1.trades t.symbol ((ih t.symbol).2 hlp)
              have hprior : priorPos s1 t.symbol = ⟨t.symbol, 0, 0, 0⟩ := by
                simp [priorPos, hlp]
              rw [hprior, hzero]
              simp [updatePositionEntry, tradeDelta]
            · have hprior : priorPos s1 t.symbol = q0 := by
                simp [priorPos, hlp]
              have hq0 := (ih t.symbol).1 q0 hlp
              rw [hprior]
              unfold updatePositionEntry
              by_cases hz : q0.quantity = 0
              · rw [if_pos hz]
                rw [← hq0, hz]
                simp
              · rw [if_neg hz]
                rw [← hq0]
          · intro hnone
            rw [hpos, lookupA_insertA_self] at hnone
            cases hnone
        · constructor
          · intro pp hp
            rw [hpos, lookupA_insertA_ne _ _ _ _ (fun hh => hsym hh.symm)] at hp
            have hc0 : symContrib sym (tid,
                ({ t with status := TradeStatus.executed,
                          price := effPrice pr t.price } : Trade)) = 0 :=
              symContrib_of_ne_symbol sym tid _ hsym
            rw [(ih sym).1 pp hp, hcontrib sym, hc0]
            ring
          · intro hnone e he
            rw [hpos, lookupA_insertA_ne _ _ _ _ (fun hh => hsym hh.symm)] at hnone
            rw [htr] at he
            rcases mem_insertA he with hm | hm
            · exact (ih sym).2 hnone e hm
            · rw [hm]
              intro hissym
              exact absurd hissym hsym
    | cancel tid =>
      show PosSumInv (cancel_trade s1 tid).2
      cases hb : (cancel_trade s1 tid).1 with
      | false =>
        have hpost : (cancel_trade s1 tid).2 = s1 := by
          rw [cancel_false_eq s1 tid hb]
        rw [hpost]
        exact ih
      | true =>
        rcases cancel_true_cases s1 tid hb with ⟨t, hl, hs, hpost⟩
        have hpend : t.status ≠ TradeStatus.executed := by
          rw [hs]
          simp
        rw [hpost]
        intro sym
        constructor
        · intro pp hp
          rw [(ih sym).1 pp hp,
            signedSum_insertA s1.trades tid t _ sym hl,
            symContrib_of_not_executed sym tid t hpend,
            symContrib_of_not_executed sym tid _ (by simp)]
          ring
        · intro hnone e he
          rcases mem_insertA he with hm | hm
          · exact (ih sym).2 hnone e hm
          · rw [hm]
            simp

/-- C4 (amended): in every state reachable without any `place_trade` call
reusing an existing trade id, each stored position's quantity equals the
signed sum of the quantities of all EXECUTED trades on its symbol (BUY
positive, SELL negative), and symbols without a position record have no
EXECUTED trades. -/
theorem position_signed_sum (s : TradeManager) (h : ReachableF s) :
    (∀ (sym : String) (p : Position), lookupA s.positions sym = some p →
      p.quantity = signedSum s.trades sym) ∧
    (∀ sym : String, lookupA s.positions sym = none →
      ∀ e ∈ s.trades, (Prod.snd e).symbol = sym →
        (Prod.snd e).status ≠ TradeStatus.executed) := by
  have hi := posSumInv_reachableF s h
  exact ⟨fun sym p hp => (hi sym).1 p hp, fun sym hn => (hi sym).2 hn⟩

theorem sW4_cost_ok : ¬ sW4b.balance < effPrice none tW4.price * tW4.quantity := by
  show ¬ (0:ℚ) < 0 * 1
  norm_num

theorem sW4_exec_true : (execute_trade sW4b "A_buy_0" none).1 = true := by
  rw [exec_buy_success sW4b "A_buy_0" none tW4 rfl rfl rfl sW4_cost_ok]

theorem sW4_trades : sW4.trades =
    [("A_buy_0", ⟨"A_buy_0", "A", TradeType.buy, 1, 0, 0, TradeStatus.executed⟩)] := by
  show (execute_trade sW4b "A_buy_0" none).2.trades = _
  rw [exec_buy_success sW4b "A_buy_0" none tW4 rfl rfl rfl sW4_cost_ok]
  rfl

theorem sW4_positions : lookupA sW4.positions "A" = some (Position.mk "A" 1 0 0) := by
  show lookupA (execute_trade sW4b "A_buy_0" none).2.positions "A" = _
  rw [exec_buy_success sW4b "A_buy_0" none tW4 rfl rfl rfl sW4_cost_ok]
  show lookupA (insertA sW4b.positions "A"
    (updatePositionEntry (priorPos sW4b "A") tW4.quantity (effPrice none tW4.price)))
    "A" = _
  rw [lookupA_insertA_self]
  have hprior : priorPos sW4b "A" = ⟨"A", 0, 0, 0⟩ := rfl
  rw [hprior]
  norm_num [updatePositionEntry, effPrice, tW4]

theorem position_signed_sum_w : signedSum sW4.trades "A" = 1 := by
  have hr1 : ReachableF sW4b :=
    ReachableF.step initTM (Op.placeTrade "A" TradeType.buy 1 0 0)
      ReachableF.init rfl
  have hr2 : ReachableF sW4 :=
    ReachableF.step sW4b (Op.settle "A_buy_0" none) hr1 trivial
  have h := (position_signed_sum sW4 hr2).1 "A" (Position.mk "A" 1 0 0) sW4_positions
  rw [← h]

/-- C4 is false for unrestricted call sequences: after settling a BUY of
quantity 1 on "A", a second `place_trade` with the same symbol, side and
timestamp overwrites the EXECUTED trade with a PENDING one, so the stored
position quantity 1 no longer equals the signed sum 0 of EXECUTED trades,
although the state is reachable by well-formed calls. -/
theorem position_signed_sum_ce :
    Reachable sC4 ∧
    lookupA sC4.positions "A" = some (Position.mk "A" 1 0 0) ∧
    (Position.mk "A" 1 0 0).quantity ≠ signedSum sC4.trades "A" := by
  have hr1 : Reachable sW4b :=
    Reachable.step initTM (Op.placeTrade "A" TradeType.buy 1 0 0)
      Reachable.init ⟨by norm_num, le_refl 0⟩
  have hr2 : Reachable sW4 :=
    Reachable.step sW4b (Op.settle "A_buy_0" none) hr1
      (by intro x hx; simp at hx)
  have hr3 : Reachable sC4 :=
    Reachable.step sW4 (Op.placeTrade "A" TradeType.buy 1 0 0) hr2
      ⟨by norm_num, le_refl 0⟩
  have htrades : sC4.trades = [("A_buy_0", tW4)] := by
    show (place_trade sW4 "A" TradeType.buy 1 0 0).2.trades = _
    simp only [place_trade]
    rw [sW4_trades]
    rfl
  have hsum : signedSum sC4.trades "A" = 0 := by
    rw [htrades]
    simp [signedSum, symContrib, signedQty, tW4]
  refine ⟨hr3, ?_, ?_⟩
  · show lookupA sW4.positions "A" = _
    exact sW4_positions
  · rw [hsum]
    norm_num

theorem effPrice_some_self (x : ℚ) : effPrice (some x) x = x := by
  by_cases h : x = 0
  · simp [effPrice, h]
  · simp [effPrice, h]

theorem insertA_append_last {α : Type} (l : List (String × α)) (k : String)
    (v w : α) (h : lookupA l k = none) :
    insertA (l ++ [(k, v)]) k w = l ++ [(k, w)] := by
  induction l with
  | nil => simp [insertA]
  | cons e rest ih =>
    by_cases he : e.1 = k
    · simp [lookupA, he] at h
    · simp [lookupA, he] at h
      simp [insertA, he, ih h]

/-- C8 (amended, spec-modelled): when the pipeline receives a BUY event for a
symbol with no existing trades (and whose synthesized id is fresh), and the
balance covers the event's price × quantity, it records the order and settles
it at the event's reported price, so that afterwards `get_trade_history`
contains exactly one EXECUTED trade for that symbol. -/
theorem realtime_ingestion_settles (s : TradeManager) (ev : FeedEvent) (now : ℕ)
    (hside : ev.side = TradeType.buy)
    (hnosym : ∀ e ∈ s.trades, (Prod.snd e).symbol ≠ ev.symbol)
    (hfresh : lookupA s.trades (mkTradeId ev.symbol ev.side now) = none)
    (hfunds : ev.price * ev.quantity ≤ s.balance) :
    List.countP
      (fun t => decide (t.symbol = ev.symbol) &&
        decide (t.status = TradeStatus.executed))
      (get_trade_history (process_realtime_trade s ev now)) = 1 := by
  have hfind : s.trades.find? (fun e => matchesEvent ev (Prod.snd e)) = none := by
    rw [List.find?_eq_none]
    intro e he hm
    simp only [matchesEvent, Bool.and_eq_true, decide_eq_true_eq] at hm
    exact hnosym e he hm.1.1.1
  have hstep : process_realtime_trade s ev now =
      (execute_trade (place_trade s ev.symbol ev.side ev.quantity ev.price now).2
        (mkTradeId ev.symbol ev.side now) (some ev.price)).2 := by
    unfold process_realtime_trade
    rw [hfind]
    rfl
  set tid := mkTradeId ev.symbol ev.side now with htid
  set tplaced : Trade :=
    ⟨tid, ev.symbol, ev.side, ev.quantity, ev.price, now, TradeStatus.pending⟩
    with htp
  set s1 := (place_trade s ev.symbol ev.side ev.quantity ev.price now).2 with hs1
  have hlook : lookupA s1.trades tid = some tplaced := by
    simp [hs1, place_trade, lookupA_insertA_self, htid, htp]
  have hc : ¬ s1.balance < effPrice (some ev.price) tplaced.price * tplaced.quantity := by
    have hb : s1.balance = s.balance := rfl
    have hp : tplaced.price = ev.price := rfl
    rw [hb, hp, effPrice_some_self]
    exact not_lt.mpr hfunds
  have hbuy : tplaced.trade_type = TradeType.buy := hside
  have hexec := exec_buy_success s1 tid (some ev.price) tplaced hlook rfl hbuy hc
  have htr1 : s1.trades = s.trades ++ [(tid, tplaced)] := by
    simp only [hs1, place_trade]
    exact insertA_of_lookupA_none _ _ _ hfresh
  have htr2 : (execute_trade s1 tid (some ev.price)).2.trades =
      s.trades ++ [(tid, (⟨tid, ev.symbol, ev.side, ev.quantity,
        effPrice (some ev.price) ev.price, now, TradeStatus.executed⟩ : Trade))] := by
    rw [hexec]
    show insertA s1.trades tid _ = _
    rw [htr1]
    exact insertA_append_last s.trades tid _ _ hfresh
  rw [hstep]
  unfold get_trade_history
  rw [(List.mergeSort_perm _ _).countP_eq]
  rw [htr2]
  rw [List.map_append, List.countP_append]
  have hzero : List.countP
      (fun t => decide (t.symbol = ev.symbol) &&
        decide (t.status = TradeStatus.executed))
      (s.trades.map Prod.snd) = 0 := by
    rw [List.countP_eq_zero]
    intro t ht
    rcases List.mem_map.mp ht with ⟨e, he, hte⟩
    simp only [Bool.and_eq_true, decide_eq_true_eq, not_and]
    intro hsym
    exact absurd (hte ▸ hsym) (hnosym e he)
  rw [hzero]
  simp

theorem realtime_ingestion_settles_w :
    List.countP
      (fun t => decide (t.symbol = "BAR") &&
        decide (t.status = TradeStatus.executed))
      (get_trade_history (process_realtime_trade sW8 evC8 0)) = 1 := by
  have h := realtime_ingestion_settles sW8 evC8 0 rfl
    (by intro e he; simp [sW8] at he) rfl (by norm_num [sW8, evC8])
  exact h

/-- C8 is false without a balance assumption: feeding the "BAR" BUY 4 @ 2
event into an empty ledger records the order but the settlement fails
(cost 8 > balance 0), so the history afterwards contains no EXECUTED trade
for "BAR" — the synthesized trade stays PENDING. -/
theorem realtime_ingestion_settles_ce :
    List.countP
      (fun t => decide (t.symbol = "BAR") &&
        decide (t.status = TradeStatus.executed))
      (get_trade_history (process_realtime_trade initTM evC8 0)) = 0 ∧
    statusOf (process_realtime_trade initTM evC8 0) "BAR_buy_0" =
      some TradeStatus.pending := by
  have hc : (place_trade initTM "BAR" TradeType.buy 4 2 0).2.balance <
      effPrice (some 2) (2:ℚ) * (4:ℚ) := by
    show (0:ℚ) < effPrice (some 2) (2:ℚ) * (4:ℚ)
    norm_num [effPrice]
  have hfail : execute_trade (place_trade initTM "BAR" TradeType.buy 4 2 0).2
      "BAR_buy_0" (some 2) =
      (false, (place_trade initTM "BAR" TradeType.buy 4 2 0).2) :=
    exec_buy_insufficient (place_trade initTM "BAR" TradeType.buy 4 2 0).2
      "BAR_buy_0" (some 2)
      ⟨"BAR_buy_0", "BAR", TradeType.buy, 4, 2, 0, TradeStatus.pending⟩
      rfl rfl rfl hc
  have hstate : process_realtime_trade initTM evC8 0 =
      (place_trade initTM "BAR" TradeType.buy 4 2 0).2 := by
    show (execute_trade (place_trade initTM "BAR" TradeType.buy 4 2 0).2
      "BAR_buy_0" (some 2)).2 = _
    rw [hfail]
  rw [hstate]
  constructor
  · unfold get_trade_history
    rw [(List.mergeSort_perm _ _).countP_eq]
    decide
  · decide
